import Mathlib

/-!
Verification of the kmsvnc frame pipeline.

This file gives a shallow embedding, in Lean 4, of the pure computational
core of the kmsvnc repository and proves properties of it:

* src/kms/pixel_format.rs : pixel-format conversion to BGRA and the
  incremental tile-diffing copy;
* src/frame_diff.rs       : the dirty-tile bitmap and its drain operation;
* src/vnc/server.rs       : the VNC DES challenge response, the client
  pixel format and the writer-loop pixel emission;
* src/main.rs             : the adaptive capture scheduler state machine;
* src/input/touch.rs      : the virtual-touchscreen pointer state machine.

Byte buffers are modelled as total functions from byte index to byte value
(`Buf`); machine integers are modelled as `Nat` (with explicit `% 2^w`
where the source relies on wrapping) or `Int` where the source uses signed
values.  Atomic words are modelled as plain values: all claims considered
here are about single-threaded executions of the operations.
-/

namespace Kmsvnc

/-- Byte buffers: a total function from byte offset to byte value.
Models the `&[u8]` / `&mut [u8]` slices of the source; bounds that the
Rust code enforces by slice length show up as hypotheses on theorems. -/
abbrev Buf := Nat → Nat

/-- Read a segment of `len` bytes starting at `start`, as a list.
Models a Rust slice expression `b[start..start + len]`. -/
def seg (b : Buf) (start len : Nat) : List Nat :=
  (List.range len).map fun i => b (start + i)

/-- Write `len` bytes into `dst` at `dstStart`, taken from `src` at
`srcStart`.  Models `dst[d..d+len].copy_from_slice(&src[s..s+len])`. -/
def copySeg (dst : Buf) (src : Buf) (dstStart srcStart len : Nat) : Buf :=
  fun i =>
    if dstStart ≤ i ∧ i < dstStart + len then src (srcStart + (i - dstStart))
    else dst i

/-- The DRM pixel formats supported by `convert_to_bgra_into`
(src/kms/pixel_format.rs).  Any other fourcc value makes the source
return an error and is not modelled. -/
inductive DrmFourcc where
  | Xrgb8888
  | Argb8888
  | Xbgr8888
  | Abgr8888
  | Rgb565
deriving DecidableEq, Repr

/-- Embeds `is_direct_copy` (src/kms/pixel_format.rs): true if the mmap
bytes already are the BGRA output bytes. -/
def is_direct_copy (format : DrmFourcc) : Bool :=
  match format with
  | .Xrgb8888 | .Argb8888 => true
  | _ => false

/-- Embeds `copy_rows_into` (src/kms/pixel_format.rs): row copy for
formats whose memory layout matches VNC byte order, dropping pitch
padding.  The destination vector is returned as a list of bytes. -/
def copy_rows_into (src : Buf) (width height pitch : Nat) : List Nat :=
  let row_bytes := width * 4
  if pitch = row_bytes then
    (List.range (row_bytes * height)).map src
  else
    (List.range height).flatMap fun y =>
      (List.range row_bytes).map fun i => src (y * pitch + i)

/-- Embeds `convert_xbgr8888_into` (src/kms/pixel_format.rs): per pixel
output [B, G, R, 0xFF] from memory layout [R, G, B, X]. -/
def convert_xbgr8888_into (src : Buf) (width height pitch : Nat) : List Nat :=
  (List.range height).flatMap fun y =>
    (List.range width).flatMap fun x =>
      let off := y * pitch + x * 4
      [src (off + 2), src (off + 1), src off, 0xFF]

/-- Embeds `convert_abgr8888_into` (src/kms/pixel_format.rs): per pixel
output [B, G, R, 0xFF] from memory layout [R, G, B, A]; alpha forced. -/
def convert_abgr8888_into (src : Buf) (width height pitch : Nat) : List Nat :=
  (List.range height).flatMap fun y =>
    (List.range width).flatMap fun x =>
      let off := y * pitch + x * 4
      [src (off + 2), src (off + 1), src off, 0xFF]

/-- Embeds `convert_rgb565_into` (src/kms/pixel_format.rs): little-endian
u16 pixel, 5/6/5 channels expanded to 8 bits by bit replication. -/
def convert_rgb565_into (src : Buf) (width height pitch : Nat) : List Nat :=
  (List.range height).flatMap fun y =>
    (List.range width).flatMap fun x =>
      let off := y * pitch + x * 2
      let lo := src off % 256
      let hi := src (off + 1) % 256
      let pixel := lo ||| (hi <<< 8)
      let r := (pixel >>> 11) &&& 0x1F
      let g := (pixel >>> 5) &&& 0x3F
      let b := pixel &&& 0x1F
      [(b <<< 3) ||| (b >>> 2), (g <<< 2) ||| (g >>> 4), (r <<< 3) ||| (r >>> 2), 0xFF]

/-- Embeds `convert_to_bgra_into` (src/kms/pixel_format.rs) restricted to
the five supported formats (other formats return `Err` in the source). -/
def convert_to_bgra (src : Buf) (width height pitch : Nat) (format : DrmFourcc) : List Nat :=
  match format with
  | .Xrgb8888 | .Argb8888 => copy_rows_into src width height pitch
  | .Xbgr8888 => convert_xbgr8888_into src width height pitch
  | .Abgr8888 => convert_abgr8888_into src width height pitch
  | .Rgb565 => convert_rgb565_into src width height pitch

/-! Generic indexing lemmas for `flatMap` over `List.range` with
constant chunk length. -/

theorem flatMap_range_length {α : Type} (f : Nat → List α) (n c : Nat)
    (h : ∀ k, k < n → (f k).length = c) :
    ((List.range n).flatMap f).length = n * c := by
  induction n with
  | zero => simp
  | succ m ih =>
    rw [List.range_succ, List.flatMap_append, List.length_append,
      ih (fun k hk => h k (by omega)), List.flatMap_cons, List.flatMap_nil,
      List.append_nil, h m (by omega), Nat.succ_mul]

theorem div_of_between {i m c : Nat} (h1 : m * c ≤ i) (h2 : i < m * c + c) :
    i / c = m :=
  Nat.div_eq_of_lt_le h1 (by rw [Nat.succ_mul]; omega)

theorem mod_of_between {i m c : Nat} (h1 : m * c ≤ i) (h2 : i < m * c + c) :
    i % c = i - m * c := by
  have hd : i / c = m := div_of_between h1 h2
  have key := Nat.div_add_mod i c
  rw [hd] at key
  have hcm : c * m = m * c := Nat.mul_comm c m
  omega

theorem flatMap_range_getD {α : Type} (f : Nat → List α) (n c : Nat)
    (h : ∀ k, k < n → (f k).length = c) (i : Nat) (hi : i < n * c) (d : α) :
    ((List.range n).flatMap f).getD i d = (f (i / c)).getD (i % c) d := by
  induction n with
  | zero => omega
  | succ m ih =>
    rw [List.range_succ, List.flatMap_append, List.flatMap_cons, List.flatMap_nil,
      List.append_nil]
    have hlen : ((List.range m).flatMap f).length = m * c :=
      flatMap_range_length f m c (fun k hk => h k (by omega))
    by_cases hc : i < m * c
    · rw [List.getD_append _ _ _ _ (by rw [hlen]; exact hc)]
      exact ih (fun k hk => h k (by omega)) hc
    · have h1 : m * c ≤ i := by omega
      have h2 : i < m * c + c := by
        have hs : (m + 1) * c = m * c + c := by ring
        omega
      rw [List.getD_append_right _ _ _ _ (by rw [hlen]; exact h1), hlen,
        div_of_between h1 h2, mod_of_between h1 h2]

theorem map_range_getD {α : Type} (g : Nat → α) (n i : Nat) (hi : i < n) (d : α) :
    ((List.range n).map g).getD i d = g i := by
  rw [List.getD_eq_getElem _ _ (by simpa using hi), List.getElem_map, List.getElem_range]

theorem getD_three {α : Type} (a b c e : α) (d : α) :
    ([a, b, c, e] : List α).getD 3 d = e := rfl

/-- Indexing a converter of the shape row-flatMap / pixel-flatMap where
every pixel contributes exactly 4 output bytes. -/
theorem conv4_getD (pix : Nat → Nat → List Nat)
    (hlen : ∀ y x, (pix y x).length = 4)
    (width height : Nat) (x y k : Nat) (hx : x < width) (hy : y < height)
    (hk : k < 4) (d : Nat) :
    ((List.range height).flatMap fun y =>
      (List.range width).flatMap fun x => pix y x).getD (4 * (y * width + x) + k) d
      = (pix y x).getD k d := by
  have hrow : ∀ yy, yy < height →
      ((List.range width).flatMap fun x => pix yy x).length = width * 4 := by
    intro yy _
    exact flatMap_range_length _ width 4 (fun xx _ => hlen yy xx)
  have hxk : 4 * x + k < width * 4 := by omega
  have hlow : y * (width * 4) ≤ 4 * (y * width + x) + k := by nlinarith
  have hup : 4 * (y * width + x) + k < y * (width * 4) + width * 4 := by nlinarith
  have hi : 4 * (y * width + x) + k < height * (width * 4) := by
    have hy1 : y + 1 ≤ height := hy
    have := Nat.mul_le_mul_right (width * 4) hy1
    have hs : (y + 1) * (width * 4) = y * (width * 4) + width * 4 := by ring
    omega
  rw [flatMap_range_getD _ height (width * 4) hrow _ hi,
    div_of_between hlow hup, mod_of_between hlow hup]
  have hlow2 : x * 4 ≤ 4 * (y * width + x) + k - y * (width * 4) := by
    have : 4 * (y * width + x) + k - y * (width * 4) = 4 * x + k := by
      have hyw : y * (width * 4) = 4 * (y * width) := by ring
      omega
    omega
  have heq : 4 * (y * width + x) + k - y * (width * 4) = 4 * x + k := by
    have hyw : y * (width * 4) = 4 * (y * width) := by ring
    omega
  rw [heq]
  have h1 : x * 4 ≤ 4 * x + k := by omega
  have h2 : 4 * x + k < x * 4 + 4 := by omega
  rw [flatMap_range_getD _ width 4 (fun xx _ => hlen y xx) _ (by omega),
    div_of_between h1 h2, mod_of_between h1 h2]
  have hkk : 4 * x + k - x * 4 = k := by omega
  rw [hkk]

/-- Reading byte `i` of `copy_rows_into` output: the byte comes from the
source at row `i / (width·4)` (using the pitch) and column `i % (width·4)`. -/
theorem copy_rows_into_getD (src : Buf) (width height pitch : Nat) (i : Nat)
    (hi : i < height * (width * 4)) (d : Nat) :
    (copy_rows_into src width height pitch).getD i d
      = src ((i / (width * 4)) * pitch + i % (width * 4)) := by
  have hw4 : 0 < width * 4 := by
    rcases Nat.eq_zero_or_pos (width * 4) with h0 | h0
    · rw [h0, Nat.mul_zero] at hi; omega
    · exact h0
  have hmod : i % (width * 4) < width * 4 := Nat.mod_lt _ hw4
  unfold copy_rows_into
  by_cases hp : pitch = width * 4
  · rw [if_pos hp]
    have hi2 : i < width * 4 * height := by
      have : width * 4 * height = height * (width * 4) := by ring
      omega
    rw [map_range_getD src _ i hi2]
    congr 1
    have key := Nat.div_add_mod i (width * 4)
    have hc : (i / (width * 4)) * pitch = width * 4 * (i / (width * 4)) := by
      rw [hp]; ring
    omega
  · rw [if_neg hp]
    have hrow : ∀ yy, yy < height →
        ((List.range (width * 4)).map fun o => src (yy * pitch + o)).length
          = width * 4 := by
      intro yy _; simp
    rw [flatMap_range_getD _ height (width * 4) hrow _ hi,
      map_range_getD _ _ _ hmod]

/-- Claim C1 counterexample: for the XRGB8888 direct-copy path the output
alpha byte is the source byte, not 0xFF.  A 1×1 XRGB8888 image whose four
bytes are all zero converts to output whose byte 3 is 0, not 0xFF. -/
theorem C1_alpha_counterexample :
    (convert_to_bgra (fun _ => 0) 1 1 4 DrmFourcc.Xrgb8888).getD 3 0 ≠ 0xFF := by
  decide

/-- Claim C1 (amended): for the per-pixel converting formats XBGR8888,
ABGR8888 and RGB565 every output pixel's alpha byte (byte 3 of the 4-byte
BGRA pixel) is 0xFF; for the direct-copy formats XRGB8888 and ARGB8888 the
output pixel's byte 3 is copied verbatim from the source (byte
`y·pitch + 4x + 3`), not forced to 0xFF. -/
theorem C1_alpha_amended (src : Buf) (width height pitch x y : Nat)
    (hx : x < width) (hy : y < height) :
    (convert_to_bgra src width height pitch DrmFourcc.Xbgr8888).getD
        (4 * (y * width + x) + 3) 0 = 0xFF
    ∧ (convert_to_bgra src width height pitch DrmFourcc.Abgr8888).getD
        (4 * (y * width + x) + 3) 0 = 0xFF
    ∧ (convert_to_bgra src width height pitch DrmFourcc.Rgb565).getD
        (4 * (y * width + x) + 3) 0 = 0xFF
    ∧ (convert_to_bgra src width height pitch DrmFourcc.Xrgb8888).getD
        (4 * (y * width + x) + 3) 0 = src (y * pitch + (4 * x + 3))
    ∧ (convert_to_bgra src width height pitch DrmFourcc.Argb8888).getD
        (4 * (y * width + x) + 3) 0 = src (y * pitch + (4 * x + 3)) := by
  have hdirect :
      (copy_rows_into src width height pitch).getD (4 * (y * width + x) + 3) 0
        = src (y * pitch + (4 * x + 3)) := by
    have hxk : 4 * x + 3 < width * 4 := by omega
    have hlow : y * (width * 4) ≤ 4 * (y * width + x) + 3 := by nlinarith
    have hup : 4 * (y * width + x) + 3 < y * (width * 4) + width * 4 := by nlinarith
    have hi : 4 * (y * width + x) + 3 < height * (width * 4) := by
      have hy1 : y + 1 ≤ height := hy
      have := Nat.mul_le_mul_right (width * 4) hy1
      have hs : (y + 1) * (width * 4) = y * (width * 4) + width * 4 := by ring
      omega
    rw [copy_rows_into_getD src width height pitch _ hi,
      div_of_between hlow hup, mod_of_between hlow hup]
    congr 1
    have hyw : y * (width * 4) = 4 * (y * width) := by ring
    omega
  refine ⟨?_, ?_, ?_, hdirect, hdirect⟩
  · rw [show convert_to_bgra src width height pitch DrmFourcc.Xbgr8888
        = (List.range height).flatMap (fun yy => (List.range width).flatMap fun xx =>
            [src (yy * pitch + xx * 4 + 2), src (yy * pitch + xx * 4 + 1),
              src (yy * pitch + xx * 4), 0xFF]) from rfl]
    exact (conv4_getD (fun yy xx =>
        [src (yy * pitch + xx * 4 + 2), src (yy * pitch + xx * 4 + 1),
          src (yy * pitch + xx * 4), 0xFF])
      (fun _ _ => rfl) width height x y 3 hx hy (by omega) 0).trans
      (getD_three _ _ _ _ _)
  · rw [show convert_to_bgra src width height pitch DrmFourcc.Abgr8888
        = (List.range height).flatMap (fun yy => (List.range width).flatMap fun xx =>
            [src (yy * pitch + xx * 4 + 2), src (yy * pitch + xx * 4 + 1),
              src (yy * pitch + xx * 4), 0xFF]) from rfl]
    exact (conv4_getD (fun yy xx =>
        [src (yy * pitch + xx * 4 + 2), src (yy * pitch + xx * 4 + 1),
          src (yy * pitch + xx * 4), 0xFF])
      (fun _ _ => rfl) width height x y 3 hx hy (by omega) 0).trans
      (getD_three _ _ _ _ _)
  · rw [show convert_to_bgra src width height pitch DrmFourcc.Rgb565
        = (List.range height).flatMap (fun yy => (List.range width).flatMap fun xx =>
            (fun lo hi =>
              (fun pixel =>
                (fun r g b =>
                  [(b <<< 3) ||| (b >>> 2), (g <<< 2) ||| (g >>> 4),
                    (r <<< 3) ||| (r >>> 2), 0xFF])
                ((pixel >>> 11) &&& 0x1F) ((pixel >>> 5) &&& 0x3F) (pixel &&& 0x1F))
              (lo ||| (hi <<< 8)))
            (src (yy * pitch + xx * 2) % 256) (src (yy * pitch + xx * 2 + 1) % 256))
        from rfl]
    exact (conv4_getD (fun yy xx =>
        (fun lo hi =>
          (fun pixel =>
            (fun r g b =>
              [(b <<< 3) ||| (b >>> 2), (g <<< 2) ||| (g >>> 4),
                (r <<< 3) ||| (r >>> 2), 0xFF])
            ((pixel >>> 11) &&& 0x1F) ((pixel >>> 5) &&& 0x3F) (pixel &&& 0x1F))
          (lo ||| (hi <<< 8)))
        (src (yy * pitch + xx * 2) % 256) (src (yy * pitch + xx * 2 + 1) % 256))
      (fun _ _ => rfl) width height x y 3 hx hy (by omega) 0).trans
      (getD_three _ _ _ _ _)

/-- Claim C1 witness: the amended theorem applied to a concrete 1×1 image
whose bytes are all 7. -/
theorem C1_alpha_witness :
    (convert_to_bgra (fun _ => 7) 1 1 4 DrmFourcc.Xbgr8888).getD 3 0 = 0xFF
    ∧ (convert_to_bgra (fun _ => 7) 1 1 4 DrmFourcc.Xrgb8888).getD 3 0 = 7 := by
  have h := C1_alpha_amended (fun _ => 7) 1 1 4 0 0 (by decide) (by decide)
  exact ⟨h.1, h.2.2.2.1⟩

/-! Dirty-tile bitmap (src/frame_diff.rs). -/

/-- Tile edge length in pixels (`TILE_SIZE` in src/frame_diff.rs). -/
def TILE_SIZE : Nat := 64

/-- A dirty rectangle, coordinates only (`DirtyRect` in src/frame_diff.rs). -/
structure DirtyRect where
  x : Nat
  y : Nat
  width : Nat
  height : Nat
deriving DecidableEq, Repr

/-- The dirty-tile accumulator (`DirtyTiles` in src/frame_diff.rs).  The
eight atomic u64 words are modelled as a function from word index to word
value; the claims treated here concern single-threaded executions, where
the relaxed atomics behave as plain reads and writes.  The constructor
asserts `tiles_x * tiles_y ≤ 512`, so valid states touch only words 0..7. -/
structure DirtyTiles where
  bits : Nat → Nat
  tiles_x : Nat
  tiles_y : Nat
  width : Nat
  height : Nat

/-- Embeds `DirtyTiles::new` (src/frame_diff.rs): a fresh bitmap for a
`width × height` display (`div_ceil` by the tile size). -/
def DirtyTiles.new (width height : Nat) : DirtyTiles where
  bits := fun _ => 0
  tiles_x := (width + (TILE_SIZE - 1)) / TILE_SIZE
  tiles_y := (height + (TILE_SIZE - 1)) / TILE_SIZE
  width := width
  height := height

/-- Embeds `DirtyTiles::set` (src/frame_diff.rs): OR bit
`tile_idx % 64` into word `tile_idx / 64`. -/
def DirtyTiles.set (s : DirtyTiles) (tile_idx : Nat) : DirtyTiles :=
  let w := tile_idx / 64
  let newWord := (s.bits w) ||| (1 <<< (tile_idx % 64))
  { s with bits := Function.update s.bits w newWord }

/-- Embeds `DirtyTiles::set_all` (src/frame_diff.rs): store `u64::MAX`
into every full word, then OR a mask of the remaining bits into the tail
word. -/
def DirtyTiles.set_all (s : DirtyTiles) : DirtyTiles :=
  let total := s.tiles_x * s.tiles_y
  let full : Nat → Nat := fun w => if w < total / 64 then 2 ^ 64 - 1 else s.bits w
  let remaining := total % 64
  if remaining > 0 then
    let tailWord := (full (total / 64)) ||| (2 ^ remaining - 1)
    { s with bits := Function.update full (total / 64) tailWord }
  else
    { s with bits := full }

/-- Embeds `DirtyTiles::drain_to_rects` (src/frame_diff.rs): swap all
words to zero and materialize one clipped rectangle per set tile bit, in
row-major tile order.  Returns the rectangle list and the drained state. -/
def DirtyTiles.drain_to_rects (s : DirtyTiles) : List DirtyRect × DirtyTiles :=
  let words := s.bits
  let rects := (List.range s.tiles_y).flatMap fun ty =>
    (List.range s.tiles_x).filterMap fun tx =>
      let idx := ty * s.tiles_x + tx
      if (words (idx / 64)).testBit (idx % 64) then
        some { x := tx * TILE_SIZE, y := ty * TILE_SIZE,
               width := min TILE_SIZE (s.width - tx * TILE_SIZE),
               height := min TILE_SIZE (s.height - ty * TILE_SIZE) }
      else none
  (rects, { s with bits := fun _ => 0 })

/-- Whether tile bit `idx` is set: bit `idx % 64` of word `idx / 64`. -/
def tilesTestBit (s : DirtyTiles) (idx : Nat) : Bool :=
  (s.bits (idx / 64)).testBit (idx % 64)

theorem tilesTestBit_set (s : DirtyTiles) (i j : Nat) :
    tilesTestBit (s.set i) j = (tilesTestBit s j || decide (i = j)) := by
  unfold tilesTestBit DirtyTiles.set
  simp only
  by_cases hw : j / 64 = i / 64
  · rw [hw, Function.update_same, Nat.testBit_or, Nat.shiftLeft_eq, Nat.one_mul,
      Nat.testBit_two_pow]
    by_cases hij : i = j
    · simp [hij]
    · have hm : ¬ (i % 64 = j % 64) := by omega
      simp [hij, hm]
  · rw [Function.update_noteq hw]
    have hij : ¬ (i = j) := by
      intro h
      exact hw (by rw [h])
    simp [hij]

@[simp] theorem DirtyTiles.set_tiles_x (s : DirtyTiles) (i : Nat) :
    (s.set i).tiles_x = s.tiles_x := rfl

@[simp] theorem DirtyTiles.set_tiles_y (s : DirtyTiles) (i : Nat) :
    (s.set i).tiles_y = s.tiles_y := rfl

@[simp] theorem DirtyTiles.set_width (s : DirtyTiles) (i : Nat) :
    (s.set i).width = s.width := rfl

@[simp] theorem DirtyTiles.set_height (s : DirtyTiles) (i : Nat) :
    (s.set i).height = s.height := rfl

theorem tilesTestBit_foldl_set {α : Type} (f : α → Nat) (ps : List α)
    (t0 : DirtyTiles) (j : Nat) :
    tilesTestBit (ps.foldl (fun t p => t.set (f p)) t0) j
      = (tilesTestBit t0 j || ps.any fun p => decide (f p = j)) := by
  induction ps generalizing t0 with
  | nil => simp
  | cons p rest ih =>
    rw [List.foldl_cons, ih, List.any_cons, tilesTestBit_set, Bool.or_assoc]

theorem foldl_set_tiles_x {α : Type} (f : α → Nat) (ps : List α) (t0 : DirtyTiles) :
    (ps.foldl (fun t p => t.set (f p)) t0).tiles_x = t0.tiles_x := by
  induction ps generalizing t0 with
  | nil => rfl
  | cons p rest ih => rw [List.foldl_cons, ih]; rfl

theorem foldl_set_tiles_y {α : Type} (f : α → Nat) (ps : List α) (t0 : DirtyTiles) :
    (ps.foldl (fun t p => t.set (f p)) t0).tiles_y = t0.tiles_y := by
  induction ps generalizing t0 with
  | nil => rfl
  | cons p rest ih => rw [List.foldl_cons, ih]; rfl

theorem foldl_set_width {α : Type} (f : α → Nat) (ps : List α) (t0 : DirtyTiles) :
    (ps.foldl (fun t p => t.set (f p)) t0).width = t0.width := by
  induction ps generalizing t0 with
  | nil => rfl
  | cons p rest ih => rw [List.foldl_cons, ih]; rfl

theorem foldl_set_height {α : Type} (f : α → Nat) (ps : List α) (t0 : DirtyTiles) :
    (ps.foldl (fun t p => t.set (f p)) t0).height = t0.height := by
  induction ps generalizing t0 with
  | nil => rfl
  | cons p rest ih => rw [List.foldl_cons, ih]; rfl

/-- Specification shape of the drain result, following the spec text: one
rectangle per set tile bit, in row-major tile-index order, clipped to the
display edge (width `min(64, W - x0)`, height `min(64, H - y0)`). -/
def drainSpec (s : DirtyTiles) : List DirtyRect :=
  (List.range (s.tiles_y * s.tiles_x)).filterMap fun idx =>
    if tilesTestBit s idx then
      some { x := (idx % s.tiles_x) * TILE_SIZE, y := (idx / s.tiles_x) * TILE_SIZE,
             width := min TILE_SIZE (s.width - (idx % s.tiles_x) * TILE_SIZE),
             height := min TILE_SIZE (s.height - (idx / s.tiles_x) * TILE_SIZE) }
    else none

theorem flatMap_filterMap_range {α : Type} (g : Nat → Option α) (a b : Nat) :
    ((List.range a).flatMap fun ty => (List.range b).filterMap fun tx => g (ty * b + tx))
      = (List.range (a * b)).filterMap g := by
  induction a with
  | zero => simp
  | succ m ih =>
    rw [List.range_succ, List.flatMap_append, ih, List.flatMap_cons, List.flatMap_nil,
      List.append_nil]
    have hmul : (m + 1) * b = m * b + b := by ring
    rw [hmul, List.range_add, List.filterMap_append, List.filterMap_map]
    rfl

theorem drain_eq_drainSpec (s : DirtyTiles) :
    (s.drain_to_rects).1 = drainSpec s := by
  unfold DirtyTiles.drain_to_rects drainSpec
  simp only
  rw [← flatMap_filterMap_range]
  apply List.flatMap_congr
  intro ty _
  apply List.filterMap_congr
  intro tx htx
  have hb : tx < s.tiles_x := List.mem_range.mp htx
  have h1 : ty * s.tiles_x ≤ ty * s.tiles_x + tx := by omega
  have h2 : ty * s.tiles_x + tx < ty * s.tiles_x + s.tiles_x := by omega
  have hdiv := div_of_between h1 h2
  have hmod := mod_of_between h1 h2
  have hmod2 : (ty * s.tiles_x + tx) % s.tiles_x = tx := by omega
  rw [tilesTestBit, hdiv, hmod2]

/-- Claim C5: draining clears every tile bit (all eight words are swapped
to zero), and the returned list is exactly one clipped rectangle per set
tile bit in row-major order (`drainSpec`).  The hypothesis is the
constructor invariant of `DirtyTiles::new` (at most 512 tiles). -/
theorem C5_drain_clears_and_lists (s : DirtyTiles)
    (_hv : s.tiles_x * s.tiles_y ≤ 512) :
    (∀ j, tilesTestBit (s.drain_to_rects).2 j = false)
    ∧ (s.drain_to_rects).1 = drainSpec s := by
  constructor
  · intro j
    unfold tilesTestBit DirtyTiles.drain_to_rects
    simp [Nat.zero_testBit]
  · exact drain_eq_drainSpec s

/-- Claim C5 witness: a concrete 2×2-tile state (100×90 display) with tile
bits 0 and 1 set; the drain clears bit 0 and returns the two clipped
rectangles. -/
theorem C5_drain_witness :
    (tilesTestBit (DirtyTiles.drain_to_rects
        ⟨fun w => if w = 0 then 3 else 0, 2, 2, 100, 90⟩).2 0 = false)
    ∧ (DirtyTiles.drain_to_rects
        ⟨fun w => if w = 0 then 3 else 0, 2, 2, 100, 90⟩).1
      = drainSpec ⟨fun w => if w = 0 then 3 else 0, 2, 2, 100, 90⟩ := by
  have h := C5_drain_clears_and_lists
    ⟨fun w => if w = 0 then 3 else 0, 2, 2, 100, 90⟩ (by decide)
  exact ⟨h.1 0, h.2⟩

/-- Claim C10: drain is idempotent on an undisturbed bitmap — a second
`drain_to_rects` with no intervening `set` or `set_all` returns the empty
rectangle list. -/
theorem C10_drain_idempotent (s : DirtyTiles) :
    (((s.drain_to_rects).2).drain_to_rects).1 = [] := by
  simp [DirtyTiles.drain_to_rects, Nat.zero_testBit]

/-! Client pixel format and the writer-loop pixel emission
(src/vnc/server.rs). -/

/-- Embeds `ClientPixelFormat` (src/vnc/server.rs). -/
structure ClientPixelFormat where
  bpp : Nat
  big_endian : Bool
  red_max : Nat
  green_max : Nat
  blue_max : Nat
  red_shift : Nat
  green_shift : Nat
  blue_shift : Nat
deriving DecidableEq, Repr

/-- Embeds `ClientPixelFormat::server_default` (src/vnc/server.rs):
32 bpp little-endian, channel maxes 255, shifts 16/8/0. -/
def ClientPixelFormat.server_default : ClientPixelFormat where
  bpp := 32
  big_endian := false
  red_max := 255
  green_max := 255
  blue_max := 255
  red_shift := 16
  green_shift := 8
  blue_shift := 0

/-- Embeds `ClientPixelFormat::matches_server_default` (src/vnc/server.rs). -/
def ClientPixelFormat.matches_server_default (pf : ClientPixelFormat) : Bool :=
  pf.bpp == 32 && !pf.big_endian && pf.red_max == 255 && pf.green_max == 255
    && pf.blue_max == 255 && pf.red_shift == 16 && pf.green_shift == 8
    && pf.blue_shift == 0

/-- Little-endian byte serialization of the low `n` bytes of `v`
(`u32::to_le_bytes` and truncating casts in the source). -/
def le_bytes (v n : Nat) : List Nat :=
  (List.range n).map fun k => v / 2 ^ (8 * k) % 256

/-- Big-endian byte serialization (`to_be_bytes` in the source). -/
def be_bytes (v n : Nat) : List Nat :=
  (le_bytes v n).reverse

/-- Embeds `convert_row_into` (src/vnc/server.rs): convert one row of
BGRA bytes to the client's pixel format (scale channels to the client
maxes, pack with the client shifts, serialize in client endianness). -/
def convert_row_into (bgra_row : List Nat) (pf : ClientPixelFormat) : List Nat :=
  let bytes_pp := pf.bpp / 8
  let num_pixels := bgra_row.length / 4
  (List.range num_pixels).flatMap fun i =>
    let off := i * 4
    let b := bgra_row.getD off 0
    let g := bgra_row.getD (off + 1) 0
    let r := bgra_row.getD (off + 2) 0
    let rs := if pf.red_max = 255 then r else r * pf.red_max / 255
    let gs := if pf.green_max = 255 then g else g * pf.green_max / 255
    let bs := if pf.blue_max = 255 then b else b * pf.blue_max / 255
    let pixel := ((rs <<< pf.red_shift) ||| (gs <<< pf.green_shift)
      ||| (bs <<< pf.blue_shift)) % 2 ^ 32
    match bytes_pp with
    | 4 => if pf.big_endian then be_bytes pixel 4 else le_bytes pixel 4
    | 2 => if pf.big_endian then be_bytes (pixel % 2 ^ 16) 2
           else le_bytes (pixel % 2 ^ 16) 2
    | 1 => [pixel % 256]
    | _ => (le_bytes pixel 4).take bytes_pp

/-- Embeds the per-rectangle pixel emission of the writer loop in
`handle_client` (src/vnc/server.rs): for each row of the rectangle, take
the row slice of the frame and either send it raw (when the negotiated
format matches the server default) or convert it first. -/
def emitRectRows (frame : Buf) (stride : Nat) (pf : ClientPixelFormat)
    (r : DirtyRect) : List Nat :=
  let need_convert := !pf.matches_server_default
  (List.range r.height).flatMap fun dy =>
    let start := (r.y + dy) * stride + r.x * 4
    let bgra_row := seg frame start (r.width * 4)
    if need_convert then convert_row_into bgra_row pf else bgra_row

/-- The raw BGRA bytes of a frame region, row by row (the source bytes
the claim compares against). -/
def rectRawBytes (frame : Buf) (stride : Nat) (r : DirtyRect) : List Nat :=
  (List.range r.height).flatMap fun dy =>
    seg frame ((r.y + dy) * stride + r.x * 4) (r.width * 4)

/-- Claim C4: when the client's negotiated pixel format equals the server
default, the pixel bytes the writer loop emits for a rectangle are
byte-identical to the frame's BGRA bytes for that region. -/
theorem C4_default_format_raw_bytes (frame : Buf) (stride : Nat)
    (pf : ClientPixelFormat) (r : DirtyRect)
    (hpf : pf = ClientPixelFormat.server_default) :
    emitRectRows frame stride pf r = rectRawBytes frame stride r := by
  subst hpf
  rfl

/-- Claim C4 witness: the theorem applied to a concrete frame and
rectangle. -/
theorem C4_default_format_raw_bytes_witness :
    emitRectRows (fun i => i % 256) 8 ClientPixelFormat.server_default ⟨0, 0, 2, 1⟩
      = rectRawBytes (fun i => i % 256) 8 ⟨0, 0, 2, 1⟩ :=
  C4_default_format_raw_bytes (fun i => i % 256) 8 ClientPixelFormat.server_default
    ⟨0, 0, 2, 1⟩ rfl

/-! Virtual touchscreen pointer handling (src/input/touch.rs). -/

/-- An emitted uinput event record (type, code, value), as written by
`make_event` (src/input/touch.rs). -/
structure InputEv where
  type_ : Nat
  code : Nat
  value : Int
deriving DecidableEq, Repr

/-- Event type EV_SYN. -/
def EV_SYN : Nat := 0

/-- Event type EV_KEY. -/
def EV_KEY : Nat := 1

/-- Event type EV_ABS. -/
def EV_ABS : Nat := 3

/-- Code SYN_REPORT. -/
def SYN_REPORT : Nat := 0

/-- Code BTN_TOUCH (0x14a). -/
def BTN_TOUCH : Nat := 330

/-- Code ABS_MT_SLOT (0x2f). -/
def ABS_MT_SLOT : Nat := 47

/-- Code ABS_MT_TRACKING_ID (0x39). -/
def ABS_MT_TRACKING_ID : Nat := 57

/-- Code ABS_MT_POSITION_X (0x35). -/
def ABS_MT_POSITION_X : Nat := 53

/-- Code ABS_MT_POSITION_Y (0x36). -/
def ABS_MT_POSITION_Y : Nat := 54

/-- The mutable state of `VirtualTouchscreen` (src/input/touch.rs). -/
structure TouchState where
  tracking_id : Int
  is_touching : Bool
  last_x : Nat
  last_y : Nat
deriving DecidableEq, Repr

/-- Embeds `VirtualTouchscreen::touch_down` (src/input/touch.rs):
SLOT, TRACKING_ID, POSITION_X, POSITION_Y, BTN_TOUCH=1, SYN. -/
def touch_down_events (tracking_id : Int) (x y : Nat) : List InputEv :=
  [⟨EV_ABS, ABS_MT_SLOT, 0⟩, ⟨EV_ABS, ABS_MT_TRACKING_ID, tracking_id⟩,
   ⟨EV_ABS, ABS_MT_POSITION_X, (x : Int)⟩, ⟨EV_ABS, ABS_MT_POSITION_Y, (y : Int)⟩,
   ⟨EV_KEY, BTN_TOUCH, 1⟩, ⟨EV_SYN, SYN_REPORT, 0⟩]

/-- Embeds `VirtualTouchscreen::touch_move` (src/input/touch.rs):
SLOT, POSITION_X, POSITION_Y, SYN. -/
def touch_move_events (x y : Nat) : List InputEv :=
  [⟨EV_ABS, ABS_MT_SLOT, 0⟩, ⟨EV_ABS, ABS_MT_POSITION_X, (x : Int)⟩,
   ⟨EV_ABS, ABS_MT_POSITION_Y, (y : Int)⟩, ⟨EV_SYN, SYN_REPORT, 0⟩]

/-- Embeds `VirtualTouchscreen::touch_up` (src/input/touch.rs):
SLOT, TRACKING_ID=-1, BTN_TOUCH=0, SYN. -/
def touch_up_events : List InputEv :=
  [⟨EV_ABS, ABS_MT_SLOT, 0⟩, ⟨EV_ABS, ABS_MT_TRACKING_ID, -1⟩,
   ⟨EV_KEY, BTN_TOUCH, 0⟩, ⟨EV_SYN, SYN_REPORT, 0⟩]

/-- Embeds `VirtualTouchscreen::handle_pointer` (src/input/touch.rs):
the state transition plus the list of uinput events it writes. -/
def handle_pointer (s : TouchState) (button_mask x y : Nat) :
    TouchState × List InputEv :=
  let touching := (button_mask &&& 1) != 0
  if touching && !s.is_touching then
    let tid := (s.tracking_id + 1) % 65536
    ({ tracking_id := tid, is_touching := true, last_x := x, last_y := y },
      touch_down_events tid x y)
  else if touching && s.is_touching && (x != s.last_x || y != s.last_y) then
    ({ s with last_x := x, last_y := y }, touch_move_events x y)
  else if !touching && s.is_touching then
    ({ s with is_touching := false, last_x := x, last_y := y }, touch_up_events)
  else
    ({ s with last_x := x, last_y := y }, [])

/-- The pointer state machine exactly as the spec enumerates it: Up with
button bit 0 set increments the tracking id mod 65536 and emits the
touch-down sequence; Down with bit 0 set and a changed position emits the
move sequence; Down with bit 0 clear emits the touch-up sequence; every
other case emits nothing; last_x/last_y are always recorded. -/
def touchSpecStep (s : TouchState) (button_mask x y : Nat) :
    TouchState × List InputEv :=
  let b0 := (button_mask &&& 1) != 0
  let moved := x != s.last_x || y != s.last_y
  if !s.is_touching && b0 then
    let id := (s.tracking_id + 1) % 65536
    ({ tracking_id := id, is_touching := true, last_x := x, last_y := y },
      touch_down_events id x y)
  else if s.is_touching && b0 && moved then
    ({ s with last_x := x, last_y := y }, touch_move_events x y)
  else if s.is_touching && !b0 then
    ({ s with is_touching := false, last_x := x, last_y := y }, touch_up_events)
  else
    ({ s with last_x := x, last_y := y }, [])

/-- Claim C8: the pointer handler implements the spec's touch state
machine exactly, and always records last_x/last_y. -/
theorem C8_touch_state_machine (s : TouchState) (button_mask x y : Nat) :
    handle_pointer s button_mask x y = touchSpecStep s button_mask x y
    ∧ (handle_pointer s button_mask x y).1.last_x = x
    ∧ (handle_pointer s button_mask x y).1.last_y = y := by
  rcases s with ⟨tid, touching, lx, ly⟩
  unfold handle_pointer touchSpecStep
  rcases touching with _ | _ <;>
    rcases hb : ((button_mask &&& 1) != 0) with _ | _ <;>
      rcases hm : (x != lx || y != ly) with _ | _ <;>
        simp [hb, hm]

/-! The capture operation (src/kms/capture.rs). -/

/-- Model of the pure per-capture data path of `Capturer::capture`
(src/kms/capture.rs): on both the cache-hit and the cache-miss path the
mapped raw bytes are converted to BGRA and returned as a frame.  The
function in the source takes no force flag, holds no previous frame, and
has no code path that returns no frame for a supported format. -/
def Capturer.capture_model (raw : Buf) (width height pitch : Nat)
    (format : DrmFourcc) : Option (List Nat) :=
  some (convert_to_bgra raw width height pitch format)

/-- Claim C2 (code-bug evidence): the capture path of `Capturer::capture`
always produces a frame — in particular a second capture of byte-identical
framebuffer contents still returns a frame, never the `None` that the
claim (and `CaptureFn` with its call sites in src/main.rs) requires. -/
theorem C2_capture_always_produces_frame :
    Capturer.capture_model (fun _ => 0) 1 1 4 DrmFourcc.Xrgb8888 = some [0, 0, 0, 0]
    ∧ ∀ (raw : Buf) (w h p : Nat) (fmt : DrmFourcc),
        (Capturer.capture_model raw w h p fmt).isSome = true := by
  constructor
  · rfl
  · intro raw w h p fmt
    rfl

/-! The adaptive capture scheduler (capture_loop in src/main.rs). -/

/-- Embeds `CaptureMode` (src/main.rs); the polling interval is in
milliseconds. -/
inductive CaptureMode where
  | OnDemand
  | Polling (interval : Nat)
deriving DecidableEq, Repr

/-- The local state of `capture_loop` (src/main.rs): current mode, time of
the last request (milliseconds, `Instant` modelled as Nat), and the
fast-request counter. -/
structure SchedState where
  mode : CaptureMode
  last_request_time : Option Nat
  fast_request_count : Nat
deriving DecidableEq, Repr

/-- The initial scheduler state of `capture_loop` (src/main.rs). -/
def initSchedState : SchedState :=
  { mode := .OnDemand, last_request_time := none, fast_request_count := 0 }

/-- Embeds the `Ok(())` branch of `capture_loop` (src/main.rs): on a
request at time `now`, bump the fast-request counter if the previous
request was less than 100 ms ago (switching to Polling(16) once the
counter reaches 3), reset it otherwise, and record the request time. -/
def schedOnRequest (s : SchedState) (now : Nat) : SchedState :=
  let s1 :=
    match s.last_request_time with
    | some last =>
      if now - last < 100 then
        let cnt := s.fast_request_count + 1
        if cnt ≥ 3 then
          { s with mode := .Polling 16, fast_request_count := cnt }
        else
          { s with fast_request_count := cnt }
      else
        { s with fast_request_count := 0 }
    | none => s
  { s1 with last_request_time := some now }

/-- Embeds the timeout branch of `capture_loop` (src/main.rs): in Polling
mode, if more than 500 ms have passed since the last request, fall back to
OnDemand and reset the fast-request counter; otherwise keep polling.  The
OnDemand timeout branch only checks the shutdown flag. -/
def schedOnTimeout (s : SchedState) (now : Nat) : SchedState :=
  match s.mode with
  | .Polling _ =>
    match s.last_request_time with
    | some last =>
      if 500 < now - last then
        { s with mode := .OnDemand, fast_request_count := 0 }
      else s
    | none => s
  | .OnDemand => s

/-- Run the scheduler over a sequence of request arrival times. -/
def schedRunRequests (ts : List Nat) : SchedState :=
  ts.foldl schedOnRequest initSchedState

/-- Claim C6 counterexample: three requests each within 100 ms of the
previous one (times 0, 50, 99) do NOT put the scheduler in Polling(16):
the fast-request counter only reaches 2, below the threshold of 3. -/
theorem C6_sched_counterexample :
    (schedRunRequests [0, 50, 99]).mode ≠ CaptureMode.Polling 16 := by
  decide

/-- Claim C6 (amended): starting in OnDemand, four requests — the second,
third and fourth each within 100 ms of the previous one — transition the
scheduler to Polling(16 ms); and while in Polling, a timeout tick more
than 500 ms after the last request transitions back to OnDemand and
resets the fast-request counter. -/
theorem C6_sched_amended :
    (∀ t1 t2 t3 t4 : Nat,
      t1 ≤ t2 → t2 < t1 + 100 → t2 ≤ t3 → t3 < t2 + 100 → t3 ≤ t4 → t4 < t3 + 100 →
      (schedRunRequests [t1, t2, t3, t4]).mode = CaptureMode.Polling 16)
    ∧ (∀ (s : SchedState) (iv last now : Nat),
      s.mode = CaptureMode.Polling iv → s.last_request_time = some last →
      last + 500 < now →
      (schedOnTimeout s now).mode = CaptureMode.OnDemand
      ∧ (schedOnTimeout s now).fast_request_count = 0) := by
  constructor
  · intro t1 t2 t3 t4 h12 h12f h23 h23f h34 h34f
    have s1 : schedOnRequest initSchedState t1
        = { mode := .OnDemand, last_request_time := some t1, fast_request_count := 0 } := by
      simp [schedOnRequest, initSchedState]
    have s2 : schedOnRequest
        { mode := .OnDemand, last_request_time := some t1, fast_request_count := 0 } t2
        = { mode := .OnDemand, last_request_time := some t2, fast_request_count := 1 } := by
      simp [schedOnRequest, show t2 - t1 < 100 by omega]
    have s3 : schedOnRequest
        { mode := .OnDemand, last_request_time := some t2, fast_request_count := 1 } t3
        = { mode := .OnDemand, last_request_time := some t3, fast_request_count := 2 } := by
      simp [schedOnRequest, show t3 - t2 < 100 by omega]
    have s4 : schedOnRequest
        { mode := .OnDemand, last_request_time := some t3, fast_request_count := 2 } t4
        = { mode := .Polling 16, last_request_time := some t4, fast_request_count := 3 } := by
      simp [schedOnRequest, show t4 - t3 < 100 by omega]
    rw [schedRunRequests, List.foldl_cons, List.foldl_cons, List.foldl_cons,
      List.foldl_cons, List.foldl_nil, s1, s2, s3, s4]
  · intro s iv last now hmode hlast hnow
    rcases s with ⟨mode, lastt, cnt⟩
    simp only at hmode hlast
    subst hmode
    subst hlast
    simp [schedOnTimeout, show 500 < now - last by omega]

/-- Claim C6 witness: the amended theorem applied at request times
0, 10, 20, 30 and to a Polling-mode timeout at time 501. -/
theorem C6_sched_witness :
    (schedRunRequests [0, 10, 20, 30]).mode = CaptureMode.Polling 16
    ∧ (schedOnTimeout
        { mode := .Polling 16, last_request_time := some 0, fast_request_count := 3 }
        501).mode = CaptureMode.OnDemand := by
  refine ⟨C6_sched_amended.1 0 10 20 30 (by omega) (by omega) (by omega) (by omega)
    (by omega) (by omega), ?_⟩
  exact (C6_sched_amended.2
    { mode := .Polling 16, last_request_time := some 0, fast_request_count := 3 }
    16 0 501 rfl rfl (by omega)).1

/-! VNC DES authentication (vnc_des_auth in src/vnc/server.rs).

The source delegates the block cipher itself to the external `des` crate
(RustCrypto), which implements standard single DES (FIPS 46-3).  The
cipher is modelled here concretely, bit-for-bit after the standard, so
that both the embedded source function and the specification formula use
the same executable primitive. -/

/-- Initial permutation IP of FIPS 46-3. -/
def DES_IP : List Nat :=
  [58, 50, 42, 34, 26, 18, 10, 2, 60, 52, 44, 36, 28, 20, 12, 4,
   62, 54, 46, 38, 30, 22, 14, 6, 64, 56, 48, 40, 32, 24, 16, 8,
   57, 49, 41, 33, 25, 17, 9, 1, 59, 51, 43, 35, 27, 19, 11, 3,
   61, 53, 45, 37, 29, 21, 13, 5, 63, 55, 47, 39, 31, 23, 15, 7]

/-- Final permutation (inverse of IP) of FIPS 46-3. -/
def DES_FP : List Nat :=
  [40, 8, 48, 16, 56, 24, 64, 32, 39, 7, 47, 15, 55, 23, 63, 31,
   38, 6, 46, 14, 54, 22, 62, 30, 37, 5, 45, 13, 53, 21, 61, 29,
   36, 4, 44, 12, 52, 20, 60, 28, 35, 3, 43, 11, 51, 19, 59, 27,
   34, 2, 42, 10, 50, 18, 58, 26, 33, 1, 41, 9, 49, 17, 57, 25]

/-- Expansion E of FIPS 46-3 (32 bits to 48 bits). -/
def DES_E : List Nat :=
  [32, 1, 2, 3, 4, 5, 4, 5, 6, 7, 8, 9, 8, 9, 10, 11, 12, 13,
   12, 13, 14, 15, 16, 17, 16, 17, 18, 19, 20, 21, 20, 21, 22, 23, 24, 25,
   24, 25, 26, 27, 28, 29, 28, 29, 30, 31, 32, 1]

/-- Permutation P of FIPS 46-3. -/
def DES_P : List Nat :=
  [16, 7, 20, 21, 29, 12, 28, 17, 1, 15, 23, 26, 5, 18, 31, 10,
   2, 8, 24, 14, 32, 27, 3, 9, 19, 13, 30, 6, 22, 11, 4, 25]

/-- Permuted choice PC-1 of FIPS 46-3 (64-bit key to 56 bits). -/
def DES_PC1 : List Nat :=
  [57, 49, 41, 33, 25, 17, 9, 1, 58, 50, 42, 34, 26, 18,
   10, 2, 59, 51, 43, 35, 27, 19, 11, 3, 60, 52, 44, 36,
   63, 55, 47, 39, 31, 23, 15, 7, 62, 54, 46, 38, 30, 22,
   14, 6, 61, 53, 45, 37, 29, 21, 13, 5, 28, 20, 12, 4]

/-- Permuted choice PC-2 of FIPS 46-3 (56 bits to 48-bit subkey). -/
def DES_PC2 : List Nat :=
  [14, 17, 11, 24, 1, 5, 3, 28, 15, 6, 21, 10,
   23, 19, 12, 4, 26, 8, 16, 7, 27, 20, 13, 2,
   41, 52, 31, 37, 47, 55, 30, 40, 51, 45, 33, 48,
   44, 49, 39, 56, 34, 53, 46, 42, 50, 36, 29, 32]

/-- Per-round left-shift schedule of FIPS 46-3. -/
def DES_SHIFTS : List Nat :=
  [1, 1, 2, 2, 2, 2, 2, 2, 1, 2, 2, 2, 2, 2, 2, 1]

/-- The eight DES S-boxes of FIPS 46-3, each 4 rows by 16 columns in
row-major order. -/
def DES_SBOXES : List (List Nat) :=
  [[14, 4, 13, 1, 2, 15, 11, 8, 3, 10, 6, 12, 5, 9, 0, 7,
    0, 15, 7, 4, 14, 2, 13, 1, 10, 6, 12, 11, 9, 5, 3, 8,
    4, 1, 14, 8, 13, 6, 2, 11, 15, 12, 9, 7, 3, 10, 5, 0,
    15, 12, 8, 2, 4, 9, 1, 7, 5, 11, 3, 14, 10, 0, 6, 13],
   [15, 1, 8, 14, 6, 11, 3, 4, 9, 7, 2, 13, 12, 0, 5, 10,
    3, 13, 4, 7, 15, 2, 8, 14, 12, 0, 1, 10, 6, 9, 11, 5,
    0, 14, 7, 11, 10, 4, 13, 1, 5, 8, 12, 6, 9, 3, 2, 15,
    13, 8, 10, 1, 3, 15, 4, 2, 11, 6, 7, 12, 0, 5, 14, 9],
   [10, 0, 9, 14, 6, 3, 15, 5, 1, 13, 12, 7, 11, 4, 2, 8,
    13, 7, 0, 9, 3, 4, 6, 10, 2, 8, 5, 14, 12, 11, 15, 1,
    13, 6, 4, 9, 8, 15, 3, 0, 11, 1, 2, 12, 5, 10, 14, 7,
    1, 10, 13, 0, 6, 9, 8, 7, 4, 15, 14, 3, 11, 5, 2, 12],
   [7, 13, 14, 3, 0, 6, 9, 10, 1, 2, 8, 5, 11, 12, 4, 15,
    13, 8, 11, 5, 6, 15, 0, 3, 4, 7, 2, 12, 1, 10, 14, 9,
    10, 6, 9, 0, 12, 11, 7, 13, 15, 1, 3, 14, 5, 2, 8, 4,
    3, 15, 0, 6, 10, 1, 13, 8, 9, 4, 5, 11, 12, 7, 2, 14],
   [2, 12, 4, 1, 7, 10, 11, 6, 8, 5, 3, 15, 13, 0, 14, 9,
    14, 11, 2, 12, 4, 7, 13, 1, 5, 0, 15, 10, 3, 9, 8, 6,
    4, 2, 1, 11, 10, 13, 7, 8, 15, 9, 12, 5, 6, 3, 0, 14,
    11, 8, 12, 7, 1, 14, 2, 13, 6, 15, 0, 9, 10, 4, 5, 3],
   [12, 1, 10, 15, 9, 2, 6, 8, 0, 13, 3, 4, 14, 7, 5, 11,
    10, 15, 4, 2, 7, 12, 9, 5, 6, 1, 13, 14, 0, 11, 3, 8,
    9, 14, 15, 5, 2, 8, 12, 3, 7, 0, 4, 10, 1, 13, 11, 6,
    4, 3, 2, 12, 9, 5, 15, 10, 11, 14, 1, 7, 6, 0, 8, 13],
   [4, 11, 2, 14, 15, 0, 8, 13, 3, 12, 9, 7, 5, 10, 6, 1,
    13, 0, 11, 7, 4, 9, 1, 10, 14, 3, 5, 12, 2, 15, 8, 6,
    1, 4, 11, 13, 12, 3, 7, 14, 10, 15, 6, 8, 0, 5, 9, 2,
    6, 11, 13, 8, 1, 4, 10, 7, 9, 5, 0, 15, 14, 2, 3, 12],
   [13, 2, 8, 4, 6, 15, 11, 1, 10, 9, 3, 14, 5, 0, 12, 7,
    1, 15, 13, 8, 10, 3, 7, 4, 12, 5, 6, 11, 0, 14, 9, 2,
    7, 11, 4, 1, 9, 12, 14, 2, 0, 6, 10, 13, 15, 3, 5, 8,
    2, 1, 14, 7, 4, 10, 8, 13, 15, 12, 9, 0, 3, 5, 6, 11]]

/-- Apply a FIPS bit-selection table to an `inWidth`-bit word (bit 1 is
the most significant bit, as in the standard). -/
def desPermute (input inWidth : Nat) (table : List Nat) : Nat :=
  table.foldl (fun acc t => acc * 2 + (if input.testBit (inWidth - t) then 1 else 0)) 0

/-- The S-box substitution: 48 bits in, 32 bits out. -/
def desSbox (x48 : Nat) : Nat :=
  (List.range 8).foldl (fun acc i =>
    let chunk := (x48 >>> (42 - 6 * i)) &&& 0x3F
    let row := ((chunk >>> 4) &&& 2) ||| (chunk &&& 1)
    let col := (chunk >>> 1) &&& 0xF
    acc * 16 + (DES_SBOXES.getD i []).getD (row * 16 + col) 0) 0

/-- The DES round function f(R, K) = P(S(E(R) xor K)). -/
def desFeistel (r32 k48 : Nat) : Nat :=
  desPermute (desSbox (desPermute r32 32 DES_E ^^^ k48)) 32 DES_P

/-- Rotate a 28-bit word left by `s` bits. -/
def rotl28 (v s : Nat) : Nat :=
  ((v <<< s) ||| (v >>> (28 - s))) % 2 ^ 28

/-- The sixteen 48-bit round subkeys derived from a 64-bit key. -/
def desSubkeys (key64 : Nat) : List Nat :=
  let pc1 := desPermute key64 64 DES_PC1
  let c0 := pc1 >>> 28
  let d0 := pc1 &&& (2 ^ 28 - 1)
  (DES_SHIFTS.foldl (fun (st : Nat × Nat × List Nat) s =>
    let c := rotl28 st.1 s
    let d := rotl28 st.2.1 s
    (c, d, st.2.2 ++ [desPermute ((c <<< 28) ||| d) 56 DES_PC2]))
    (c0, d0, [])).2.2

/-- DES encryption of one 64-bit block under a 64-bit key. -/
def desEncryptBlock (key64 block64 : Nat) : Nat :=
  let keys := desSubkeys key64
  let ip := desPermute block64 64 DES_IP
  let l0 := ip >>> 32
  let r0 := ip &&& (2 ^ 32 - 1)
  let lr := keys.foldl (fun (p : Nat × Nat) k => (p.2, p.1 ^^^ desFeistel p.2 k)) (l0, r0)
  desPermute ((lr.2 <<< 32) ||| lr.1) 64 DES_FP

/-- Big-endian byte list to natural number. -/
def bytesToNat (bs : List Nat) : Nat :=
  bs.foldl (fun acc b => acc * 256 + b % 256) 0

/-- The eight big-endian bytes of a 64-bit word. -/
def natToBytes8 (v : Nat) : List Nat :=
  (List.range 8).map fun i => (v >>> (8 * (7 - i))) % 256

/-- DES-encrypt one 8-byte block given as byte lists. -/
def desEncryptBytes (key block : List Nat) : List Nat :=
  natToBytes8 (desEncryptBlock (bytesToNat key) (bytesToNat block))

/-- Reverse the bit order of one byte (`u8::reverse_bits` in the source). -/
def reverseBits8 (b : Nat) : Nat :=
  (List.range 8).foldl (fun acc i => acc * 2 + (b >>> i) % 2) 0

/-- Embeds `vnc_des_auth` (src/vnc/server.rs): zero-initialize an 8-byte
key, copy in up to 8 password bytes, reverse the bit order of each byte,
then DES-ECB-encrypt the 16-byte challenge as two 8-byte blocks. -/
def vnc_des_auth (password challenge : List Nat) : List Nat :=
  let key_bytes := (List.range 8).map fun i => reverseBits8 ((password.take 8).getD i 0)
  desEncryptBytes key_bytes (challenge.take 8)
    ++ desEncryptBytes key_bytes (challenge.drop 8)

/-- The expected response exactly as the spec words it: pad the password
to 8 bytes with zeros (truncating if longer), reverse the bit order of
each byte individually, use the result as a DES key, and ECB-encrypt the
challenge as two independent 8-byte blocks. -/
def vnc_des_auth_spec (password challenge : List Nat) : List Nat :=
  let padded := password.take 8 ++ List.replicate (8 - (password.take 8).length) 0
  let key := padded.map reverseBits8
  desEncryptBytes key (challenge.take 8)
    ++ desEncryptBytes key (challenge.drop 8)

theorem range_map_getD_pad (f : Nat → Nat) (l : List Nat) (n : Nat)
    (hl : l.length ≤ n) :
    (List.range n).map (fun i => f (l.getD i 0))
      = (l ++ List.replicate (n - l.length) 0).map f := by
  apply List.ext_getElem
  · simp
    omega
  · intro i h1 h2
    simp only [List.getElem_map, List.getElem_range]
    congr 1
    rw [List.getElem_append]
    by_cases hi : i < l.length
    · rw [List.getD_eq_getElem l 0 hi]
      simp [hi]
    · rw [List.getD_eq_default l 0 (by omega)]
      simp [hi]

/-- Claim C3: for every password byte string and challenge, the expected
VNC authentication response computed by `vnc_des_auth` equals the spec's
formula — zero-pad the password to 8 bytes (truncating if longer),
reverse the bit order of each byte, use the result as a DES key, and
DES-ECB-encrypt the challenge as two independent 8-byte blocks. -/
theorem C3_vnc_des_auth_eq_spec (password challenge : List Nat) :
    vnc_des_auth password challenge = vnc_des_auth_spec password challenge := by
  unfold vnc_des_auth vnc_des_auth_spec
  rw [range_map_getD_pad reverseBits8 (password.take 8) 8
    (by rw [List.length_take]; omega)]

/-! The incremental tile-diffing copy (copy_rows_incremental in
src/kms/pixel_format.rs). -/

/-- The loop state of `copy_rows_incremental`: the destination buffer
(previous frame, updated in place), the dirty-tile bitmap, and the
any_dirty flag. -/
structure IncState where
  dst : Buf
  tiles : DirtyTiles
  any_dirty : Bool

/-- Number of tile columns: `width.div_ceil(TILE_SIZE)` in the source. -/
def tilesX (width : Nat) : Nat := (width + (TILE_SIZE - 1)) / TILE_SIZE

/-- Number of tile rows: `height.div_ceil(TILE_SIZE)`. -/
def tilesY (height : Nat) : Nat := (height + (TILE_SIZE - 1)) / TILE_SIZE

/-- Byte offset in the packed destination of the tile segment of row `y`
at tile column `tx` (`dst_row + x0` in the source). -/
def dstOff (width y tx : Nat) : Nat := y * (width * 4) + tx * TILE_SIZE * 4

/-- Byte offset in the pitched source of the same tile segment
(`src_row + x0` in the source). -/
def srcOff (pitch y tx : Nat) : Nat := y * pitch + tx * TILE_SIZE * 4

/-- Byte width of the tile segment at tile column `tx`
(`(TILE_SIZE.min(width - tx * TILE_SIZE) * 4)` in the source). -/
def tw (width tx : Nat) : Nat := (min TILE_SIZE (width - tx * TILE_SIZE)) * 4

/-- Destination byte indices belonging to the tile segment of row `y` at
tile column `tx`. -/
def inRegion (width y tx i : Nat) : Prop :=
  dstOff width y tx ≤ i ∧ i < dstOff width y tx + tw width tx

instance (width y tx i : Nat) : Decidable (inRegion width y tx i) := by
  unfold inRegion
  infer_instance

/-- The tile segment of row `y` at tile column `tx` holds different bytes
in the (packed) previous frame and the (pitched) source. -/
def regionDiffers (dst0 src : Buf) (width pitch y tx : Nat) : Prop :=
  seg dst0 (dstOff width y tx) (tw width tx) ≠ seg src (srcOff pitch y tx) (tw width tx)

instance (dst0 src : Buf) (width pitch y tx : Nat) :
    Decidable (regionDiffers dst0 src width pitch y tx) := by
  unfold regionDiffers
  infer_instance

/-- One inner-loop iteration of `copy_rows_incremental`
(src/kms/pixel_format.rs) for row `y` and tile column `tx`: if the tile
segment of `dst` differs from that of `src`, copy it and set tile bit
`(y / TILE_SIZE) * tiles_x + tx`; otherwise do nothing. -/
def incStepTile (src : Buf) (width pitch tiles_x y tx : Nat) (st : IncState) : IncState :=
  if seg st.dst (dstOff width y tx) (tw width tx)
      ≠ seg src (srcOff pitch y tx) (tw width tx) then
    { dst := copySeg st.dst src (dstOff width y tx) (srcOff pitch y tx) (tw width tx),
      tiles := st.tiles.set ((y / TILE_SIZE) * tiles_x + tx),
      any_dirty := true }
  else st

/-- Embeds `copy_rows_incremental` (src/kms/pixel_format.rs): walk rows
top to bottom and tile columns left to right, copying differing tile
segments from the pitched source into the packed destination and marking
dirty tiles.  Returns the final destination, bitmap and any_dirty flag. -/
def copy_rows_incremental (dst0 : Buf) (src : Buf) (width height pitch : Nat)
    (tiles0 : DirtyTiles) : IncState :=
  (List.range height).foldl (fun st y =>
    (List.range (tilesX width)).foldl (fun st2 tx =>
      incStepTile src width pitch (tilesX width) y tx st2) st)
    { dst := dst0, tiles := tiles0, any_dirty := false }

/-- The row-major list of (row, tile column) pairs the double loop
visits. -/
def tilePairs (height tiles_x : Nat) : List (Nat × Nat) :=
  (List.range height).flatMap fun y => (List.range tiles_x).map fun tx => (y, tx)

theorem foldl_flatMap {α β σ : Type} (g : α → List β) (f : σ → β → σ)
    (l : List α) (init : σ) :
    (l.flatMap g).foldl f init = l.foldl (fun s a => (g a).foldl f s) init := by
  induction l generalizing init with
  | nil => rfl
  | cons a rest ih => rw [List.flatMap_cons, List.foldl_append, List.foldl_cons, ih]

theorem copy_rows_incremental_eq_pairs (dst0 src : Buf)
    (width height pitch : Nat) (tiles0 : DirtyTiles) :
    copy_rows_incremental dst0 src width height pitch tiles0
      = (tilePairs height (tilesX width)).foldl
          (fun st p => incStepTile src width pitch (tilesX width) p.1 p.2 st)
          { dst := dst0, tiles := tiles0, any_dirty := false } := by
  unfold copy_rows_incremental tilePairs
  rw [foldl_flatMap]
  congr 1
  funext st y
  rw [List.foldl_map]

theorem tilePairs_mem (height tiles_x : Nat) (p : Nat × Nat) :
    p ∈ tilePairs height tiles_x ↔ p.1 < height ∧ p.2 < tiles_x := by
  rcases p with ⟨y, tx⟩
  unfold tilePairs
  simp [List.mem_flatMap]

theorem tilePairs_nodup (height tiles_x : Nat) :
    (tilePairs height tiles_x).Nodup := by
  have h : tilePairs height tiles_x = (List.range height) ×ˢ (List.range tiles_x) := rfl
  rw [h]
  exact List.Nodup.product (List.nodup_range height) (List.nodup_range tiles_x)

theorem seg_eq_iff (b1 b2 : Buf) (s1 s2 len : Nat) :
    seg b1 s1 len = seg b2 s2 len ↔ ∀ o, o < len → b1 (s1 + o) = b2 (s2 + o) := by
  constructor
  · intro h o ho
    have h1 := congrArg (fun l => l.getD o 0) h
    simp only at h1
    rw [show seg b1 s1 len = (List.range len).map (fun i => b1 (s1 + i)) from rfl,
      show seg b2 s2 len = (List.range len).map (fun i => b2 (s2 + i)) from rfl,
      map_range_getD _ len o ho 0, map_range_getD _ len o ho 0] at h1
    exact h1
  · intro h
    unfold seg
    exact List.map_congr_left fun o ho => h o (List.mem_range.mp ho)

/-- Tile columns index strictly inside the display width. -/
theorem tilesX_bound {width tx : Nat} (htx : tx < tilesX width) :
    TILE_SIZE * tx < width := by
  have h1 : tx + 1 ≤ (width + 63) / 64 := htx
  have h2 : ((width + 63) / 64) * 64 ≤ width + 63 := Nat.div_mul_le_self _ 64
  have h3 : (tx + 1) * 64 ≤ ((width + 63) / 64) * 64 := Nat.mul_le_mul_right 64 h1
  have h4 : (tx + 1) * 64 = tx * 64 + 64 := by ring
  show 64 * tx < width
  omega

/-- Tile rows index strictly inside the display height. -/
theorem tilesY_bound {height ty : Nat} (hty : ty < tilesY height) :
    TILE_SIZE * ty < height := tilesX_bound hty

/-- Distinct visited (row, tile column) pairs touch disjoint destination
byte ranges. -/
theorem regions_disjoint (width : Nat) (p q : Nat × Nat)
    (hp : p.2 < tilesX width) (hq : q.2 < tilesX width) (hne : p ≠ q) :
    ∀ i, inRegion width p.1 p.2 i → inRegion width q.1 q.2 i → False := by
  rcases p with ⟨y1, t1⟩
  rcases q with ⟨y2, t2⟩
  intro i hi1 hi2
  dsimp only at hp hq hi1 hi2
  have hb1 : 64 * t1 < width := tilesX_bound hp
  have hb2 : 64 * t2 < width := tilesX_bound hq
  unfold inRegion dstOff tw TILE_SIZE at hi1 hi2
  have hm1 : min 64 (width - t1 * 64) ≤ 64 := Nat.min_le_left _ _
  have hm1b : min 64 (width - t1 * 64) ≤ width - t1 * 64 := Nat.min_le_right _ _
  have hm2 : min 64 (width - t2 * 64) ≤ 64 := Nat.min_le_left _ _
  have hm2b : min 64 (width - t2 * 64) ≤ width - t2 * 64 := Nat.min_le_right _ _
  rcases Nat.lt_trichotomy y1 y2 with hy | hy | hy
  · have hmul : (y1 + 1) * (width * 4) ≤ y2 * (width * 4) :=
      Nat.mul_le_mul_right _ (by omega)
    have hexp : (y1 + 1) * (width * 4) = y1 * (width * 4) + width * 4 := by ring
    omega
  · subst hy
    rcases Nat.lt_trichotomy t1 t2 with ht | ht | ht
    · omega
    · exact hne (by rw [ht])
    · omega
  · have hmul : (y2 + 1) * (width * 4) ≤ y1 * (width * 4) :=
      Nat.mul_le_mul_right _ (by omega)
    have hexp : (y2 + 1) * (width * 4) = y2 * (width * 4) + width * 4 := by ring
    omega

/-- Main characterization of the double loop of `copy_rows_incremental`,
by induction over the visited (row, tile column) pairs: bytes outside all
visited regions keep their initial value; bytes inside a visited region
end up equal to the corresponding source byte; the bitmap accumulates
exactly the tile bits of the differing regions; and any_dirty is true
exactly when some visited region differs. -/
theorem inc_fold_invariant (src dst0 : Buf) (width pitch tiles_x : Nat)
    (ps : List (Nat × Nat))
    (hdisj : ps.Pairwise fun p q =>
      ∀ i, inRegion width p.1 p.2 i → inRegion width q.1 q.2 i → False)
    (st : IncState)
    (hpre : ∀ p ∈ ps, ∀ i, inRegion width p.1 p.2 i → st.dst i = dst0 i) :
    (∀ i, (∀ p ∈ ps, ¬ inRegion width p.1 p.2 i) →
      (ps.foldl (fun s p => incStepTile src width pitch tiles_x p.1 p.2 s) st).dst i
        = st.dst i)
    ∧ (∀ p ∈ ps, ∀ i, inRegion width p.1 p.2 i →
      (ps.foldl (fun s p => incStepTile src width pitch tiles_x p.1 p.2 s) st).dst i
        = src (srcOff pitch p.1 p.2 + (i - dstOff width p.1 p.2)))
    ∧ (ps.foldl (fun s p => incStepTile src width pitch tiles_x p.1 p.2 s) st).tiles
        = (ps.filter fun p => decide (regionDiffers dst0 src width pitch p.1 p.2)).foldl
            (fun t p => t.set ((p.1 / TILE_SIZE) * tiles_x + p.2)) st.tiles
    ∧ (ps.foldl (fun s p => incStepTile src width pitch tiles_x p.1 p.2 s) st).any_dirty
        = (st.any_dirty
           || ps.any fun p => decide (regionDiffers dst0 src width pitch p.1 p.2)) := by
  induction ps generalizing st with
  | nil =>
    refine ⟨fun i _ => rfl, ?_, rfl, by simp⟩
    intro p hp
    exact absurd hp (List.not_mem_nil p)
  | cons p rest ih =>
    rcases List.pairwise_cons.mp hdisj with ⟨hhead, htail⟩
    have hsegeq : seg st.dst (dstOff width p.1 p.2) (tw width p.2)
        = seg dst0 (dstOff width p.1 p.2) (tw width p.2) := by
      rw [seg_eq_iff]
      intro o ho
      exact hpre p (List.mem_cons_self p rest) _ ⟨by omega, by omega⟩
    by_cases hdiff : regionDiffers dst0 src width pitch p.1 p.2
    · have hst1 : incStepTile src width pitch tiles_x p.1 p.2 st
          = { dst := copySeg st.dst src (dstOff width p.1 p.2)
                (srcOff pitch p.1 p.2) (tw width p.2),
              tiles := st.tiles.set ((p.1 / TILE_SIZE) * tiles_x + p.2),
              any_dirty := true } := by
        unfold incStepTile
        rw [if_pos (by rw [hsegeq]; exact hdiff)]
      have hdst1_out : ∀ i, ¬ inRegion width p.1 p.2 i →
          (incStepTile src width pitch tiles_x p.1 p.2 st).dst i = st.dst i := by
        intro i hni
        have hni2 : ¬ (dstOff width p.1 p.2 ≤ i
            ∧ i < dstOff width p.1 p.2 + tw width p.2) := hni
        rw [hst1]
        simp only [copySeg]
        rw [if_neg hni2]
      have hpre1 : ∀ q ∈ rest, ∀ i, inRegion width q.1 q.2 i →
          (incStepTile src width pitch tiles_x p.1 p.2 st).dst i = dst0 i := by
        intro q hq i hiq
        have hnotp : ¬ inRegion width p.1 p.2 i := fun hip => hhead q hq i hip hiq
        rw [hdst1_out i hnotp]
        exact hpre q (List.mem_cons_of_mem p hq) i hiq
      obtain ⟨IH1, IH2, IH3, IH4⟩ :=
        ih htail (incStepTile src width pitch tiles_x p.1 p.2 st) hpre1
      refine ⟨?_, ?_, ?_, ?_⟩
      · intro i hni
        simp only [List.foldl_cons]
        rw [IH1 i (fun q hq => hni q (List.mem_cons_of_mem p hq))]
        exact hdst1_out i (hni p (List.mem_cons_self p rest))
      · intro q hq i hiq
        rcases List.mem_cons.mp hq with rfl | hq2
        · have hrest_not : ∀ q2 ∈ rest, ¬ inRegion width q2.1 q2.2 i :=
            fun q2 hq2 hiq2 => hhead q2 hq2 i hiq hiq2
          simp only [List.foldl_cons]
          rw [IH1 i hrest_not, hst1]
          have hiq2 : dstOff width q.1 q.2 ≤ i
              ∧ i < dstOff width q.1 q.2 + tw width q.2 := hiq
          simp only [copySeg]
          rw [if_pos hiq2]
        · simp only [List.foldl_cons]
          exact IH2 q hq2 i hiq
      · simp only [List.foldl_cons]
        rw [IH3, hst1, List.filter_cons]
        simp only [decide_eq_true_eq, hdiff, if_pos, List.foldl_cons]
      · simp only [List.foldl_cons]
        rw [IH4, hst1, List.any_cons]
        simp [hdiff]
    · have hst1 : incStepTile src width pitch tiles_x p.1 p.2 st = st := by
        unfold incStepTile
        rw [if_neg]
        rw [hsegeq]
        exact hdiff
      have hpre1 : ∀ q ∈ rest, ∀ i, inRegion width q.1 q.2 i →
          (incStepTile src width pitch tiles_x p.1 p.2 st).dst i = dst0 i := by
        intro q hq i hiq
        rw [hst1]
        exact hpre q (List.mem_cons_of_mem p hq) i hiq
      obtain ⟨IH1, IH2, IH3, IH4⟩ :=
        ih htail (incStepTile src width pitch tiles_x p.1 p.2 st) hpre1
      have hsame : seg dst0 (dstOff width p.1 p.2) (tw width p.2)
          = seg src (srcOff pitch p.1 p.2) (tw width p.2) :=
        not_ne_iff.mp hdiff
      refine ⟨?_, ?_, ?_, ?_⟩
      · intro i hni
        simp only [List.foldl_cons]
        rw [IH1 i (fun q hq => hni q (List.mem_cons_of_mem p hq)), hst1]
      · intro q hq i hiq
        rcases List.mem_cons.mp hq with rfl | hq2
        · have hrest_not : ∀ q2 ∈ rest, ¬ inRegion width q2.1 q2.2 i :=
            fun q2 hq2 hiq2 => hhead q2 hq2 i hiq hiq2
          simp only [List.foldl_cons]
          rw [IH1 i hrest_not, hst1]
          have hio : i = dstOff width q.1 q.2 + (i - dstOff width q.1 q.2) := by
            rcases hiq with ⟨h1, _⟩
            omega
          have hlt : i - dstOff width q.1 q.2 < tw width q.2 := by
            rcases hiq with ⟨h1, h2⟩
            omega
          have hpt := (seg_eq_iff _ _ _ _ _).mp hsame (i - dstOff width q.1 q.2) hlt
          rw [hpre q (List.mem_cons_self q rest) i hiq]
          rw [show dst0 i = dst0 (dstOff width q.1 q.2 + (i - dstOff width q.1 q.2))
            from by rw [← hio]]
          exact hpt
        · simp only [List.foldl_cons]
          exact IH2 q hq2 i hiq
      · simp only [List.foldl_cons]
        rw [IH3, hst1, List.filter_cons]
        simp only [decide_eq_true_eq, hdiff, if_neg, if_false]
      · simp only [List.foldl_cons]
        rw [IH4, hst1, List.any_cons]
        simp [hdiff]

theorem tilePairs_pairwise_disjoint (width height : Nat) :
    (tilePairs height (tilesX width)).Pairwise fun p q =>
      ∀ i, inRegion width p.1 p.2 i → inRegion width q.1 q.2 i → False := by
  refine List.Pairwise.imp_of_mem ?_ (tilePairs_nodup height (tilesX width))
  intro p q hp hq hne
  exact regions_disjoint width p q ((tilePairs_mem _ _ p).mp hp).2
    ((tilePairs_mem _ _ q).mp hq).2 hne

theorem copy_rows_into_length (src : Buf) (width height pitch : Nat) :
    (copy_rows_into src width height pitch).length = width * 4 * height := by
  unfold copy_rows_into
  by_cases hp : pitch = width * 4
  · simp [hp]
  · rw [if_neg hp, flatMap_range_length _ height (width * 4) (fun k _ => by simp)]
    exact Nat.mul_comm height (width * 4)

/-- Full characterization of `copy_rows_incremental`: every destination
byte inside the frame ends up equal to the corresponding source byte; the
final bitmap is the initial one with exactly the differing tile segments
marked; any_dirty is true exactly when some tile segment differed from
the initial destination. -/
theorem copy_rows_incremental_characterization (dst0 src : Buf)
    (width height pitch : Nat) (tiles0 : DirtyTiles) :
    (∀ i, i < height * (width * 4) →
      (copy_rows_incremental dst0 src width height pitch tiles0).dst i
        = src ((i / (width * 4)) * pitch + i % (width * 4)))
    ∧ (copy_rows_incremental dst0 src width height pitch tiles0).tiles
        = ((tilePairs height (tilesX width)).filter fun p =>
            decide (regionDiffers dst0 src width pitch p.1 p.2)).foldl
            (fun t p => t.set ((p.1 / TILE_SIZE) * (tilesX width) + p.2)) tiles0
    ∧ ((copy_rows_incremental dst0 src width height pitch tiles0).any_dirty = true
        ↔ ∃ y, y < height ∧ ∃ tx, tx < tilesX width
            ∧ regionDiffers dst0 src width pitch y tx) := by
  rw [copy_rows_incremental_eq_pairs]
  obtain ⟨H1, H2, H3, H4⟩ := inc_fold_invariant src dst0 width pitch (tilesX width)
    (tilePairs height (tilesX width)) (tilePairs_pairwise_disjoint width height)
    { dst := dst0, tiles := tiles0, any_dirty := false } (fun p _ i _ => rfl)
  refine ⟨?_, H3, ?_⟩
  · intro i hi
    have hW4 : 0 < width * 4 := by
      rcases Nat.eq_zero_or_pos (width * 4) with h0 | h0
      · rw [h0, Nat.mul_zero] at hi; omega
      · exact h0
    have key := Nat.div_add_mod i (width * 4)
    have hr : i % (width * 4) < width * 4 := Nat.mod_lt _ hW4
    have hy : i / (width * 4) < height := by
      rcases Nat.lt_or_ge (i / (width * 4)) height with h | h
      · exact h
      · exfalso
        have hmul : height * (width * 4) ≤ (i / (width * 4)) * (width * 4) :=
          Nat.mul_le_mul_right _ h
        have hc : (i / (width * 4)) * (width * 4) = (width * 4) * (i / (width * 4)) :=
          Nat.mul_comm _ _
        omega
    have htx : (i % (width * 4)) / (TILE_SIZE * 4) < tilesX width := by
      have hd : ((i % (width * 4)) / 256) * 256 ≤ i % (width * 4) :=
        Nat.div_mul_le_self _ 256
      unfold tilesX TILE_SIZE
      omega
    have hpair : ((i / (width * 4), (i % (width * 4)) / (TILE_SIZE * 4)) : Nat × Nat)
        ∈ tilePairs height (tilesX width) :=
      (tilePairs_mem _ _ _).mpr ⟨hy, htx⟩
    have hcomm : (i / (width * 4)) * (width * 4) = (width * 4) * (i / (width * 4)) :=
      Nat.mul_comm _ _
    have hreg : inRegion width (i / (width * 4)) ((i % (width * 4)) / (TILE_SIZE * 4)) i := by
      unfold inRegion dstOff tw TILE_SIZE
      have hd : ((i % (width * 4)) / 256) * 256 ≤ i % (width * 4) :=
        Nat.div_mul_le_self _ 256
      have hm : i % (width * 4) - ((i % (width * 4)) / 256) * 256 ≤ 255 := by omega
      constructor
      · omega
      · omega
    have hfin := H2 _ hpair i hreg
    rw [hfin]
    congr 1
    dsimp only
    unfold srcOff dstOff TILE_SIZE
    have hd : ((i % (width * 4)) / 256) * 256 ≤ i % (width * 4) :=
      Nat.div_mul_le_self _ 256
    omega
  · rw [H4]
    simp only [Bool.false_or, List.any_eq_true, decide_eq_true_eq]
    constructor
    · rintro ⟨p, hp, hdp⟩
      have hm := (tilePairs_mem _ _ p).mp hp
      exact ⟨p.1, hm.1, p.2, hm.2, hdp⟩
    · rintro ⟨y, hy, tx, htx, hd⟩
      exact ⟨(y, tx), (tilePairs_mem _ _ _).mpr ⟨hy, htx⟩, hd⟩

/-- Claim C9: after `copy_rows_incremental` the destination holds exactly
the bytes `copy_rows_into` produces from the same source, and the
returned flag is true if and only if the destination initially differed
from the source in at least one tile segment. -/
theorem C9_incremental_refines_full_copy (dst0 src : Buf)
    (width height pitch : Nat) (tiles0 : DirtyTiles)
    (_hpitch : width * 4 ≤ pitch) :
    seg (copy_rows_incremental dst0 src width height pitch tiles0).dst 0
        (width * 4 * height)
      = copy_rows_into src width height pitch
    ∧ ((copy_rows_incremental dst0 src width height pitch tiles0).any_dirty = true
        ↔ ∃ y, y < height ∧ ∃ tx, tx < tilesX width
            ∧ regionDiffers dst0 src width pitch y tx) := by
  obtain ⟨H1, _, H3⟩ :=
    copy_rows_incremental_characterization dst0 src width height pitch tiles0
  refine ⟨?_, H3⟩
  apply List.ext_getElem
  · rw [copy_rows_into_length]
    simp [seg]
  · intro i h1 h2
    have hlen : i < width * 4 * height := by
      simpa [seg] using h1
    have hlen2 : i < height * (width * 4) := by
      have hcm := Nat.mul_comm (width * 4) height
      omega
    rw [← List.getD_eq_getElem _ 0 h1, ← List.getD_eq_getElem _ 0 h2,
      copy_rows_into_getD src width height pitch i hlen2 0,
      show seg (copy_rows_incremental dst0 src width height pitch tiles0).dst 0
          (width * 4 * height)
        = (List.range (width * 4 * height)).map
            (fun k => (copy_rows_incremental dst0 src width height pitch tiles0).dst (0 + k))
        from rfl,
      map_range_getD _ _ i hlen 0, Nat.zero_add]
    exact H1 i hlen2

/-- Claim C9 witness: a 1×1 frame whose single pixel differs; the
incremental copy produces the full-copy bytes and reports a change. -/
theorem C9_incremental_witness :
    seg (copy_rows_incremental (fun _ => 0) (fun _ => 1) 1 1 4
        (DirtyTiles.new 1 1)).dst 0 4
      = copy_rows_into (fun _ => 1) 1 1 4
    ∧ (copy_rows_incremental (fun _ => 0) (fun _ => 1) 1 1 4
        (DirtyTiles.new 1 1)).any_dirty = true := by
  have h := C9_incremental_refines_full_copy (fun _ => 0) (fun _ => 1) 1 1 4
    (DirtyTiles.new 1 1) (by omega)
  exact ⟨h.1, h.2.mpr ⟨0, by omega, 0, by decide, by decide⟩⟩

theorem filterMap_range_single {α : Type} (g : Nat → Option α) (a : α) :
    ∀ n j, j < n → g j = some a → (∀ k, k < n → k ≠ j → g k = none) →
      (List.range n).filterMap g = [a] := by
  intro n
  induction n with
  | zero => intro j hj _ _; omega
  | succ m ih =>
    intro j hj hgj hother
    rw [List.range_succ, List.filterMap_append]
    by_cases hjm : j = m
    · subst hjm
      rw [show List.filterMap g (List.range j) = [] from
        List.filterMap_eq_nil_iff.mpr fun x hx =>
          hother x (by have := List.mem_range.mp hx; omega)
            (by have := List.mem_range.mp hx; omega)]
      simp [hgj]
    · rw [ih j (by omega) hgj (fun k hk hkj => hother k (by omega) hkj)]
      have hm : g m = none := hother m (by omega) (fun he => hjm he.symm)
      simp [hm]

/-- Claim C7: for two frames of size at least 64×64 that differ only in
the pixel at (63,63), running the incremental tile-diff copy on a fresh
bitmap and draining it yields exactly one dirty rectangle, 64×64 at the
origin.  The 512-tile cap is the constructor invariant of
`DirtyTiles::new`. -/
theorem C7_tile_diff_boundary (dst0 src : Buf) (width height pitch : Nat)
    (hW : 64 ≤ width) (hH : 64 ≤ height) (_hpitch : width * 4 ≤ pitch)
    (_hcap : tilesX width * tilesY height ≤ 512)
    (hagree : ∀ x y k, x < width → y < height → k < 4 → ¬(x = 63 ∧ y = 63) →
      dst0 (y * (width * 4) + 4 * x + k) = src (y * pitch + 4 * x + k))
    (hdiffpt : ∃ k, k < 4
      ∧ dst0 (63 * (width * 4) + 4 * 63 + k) ≠ src (63 * pitch + 4 * 63 + k)) :
    (((copy_rows_incremental dst0 src width height pitch
        (DirtyTiles.new width height)).tiles).drain_to_rects).1
      = [{ x := 0, y := 0, width := 64, height := 64 }] := by
  have hdiffiff : ∀ y tx, y < height → tx < tilesX width →
      (regionDiffers dst0 src width pitch y tx ↔ (y = 63 ∧ tx = 0)) := by
    intro y tx hy htx
    have hbound : 64 * tx < width := tilesX_bound htx
    constructor
    · intro hdiff
      by_contra hne
      apply hdiff
      rw [seg_eq_iff]
      intro o ho
      have htw : o < (min 64 (width - tx * 64)) * 4 := ho
      have hx : 64 * tx + o / 4 < width := by omega
      have hk : o % 4 < 4 := by omega
      have hxy : ¬ (64 * tx + o / 4 = 63 ∧ y = 63) := by
        rintro ⟨hx63, hy63⟩
        exact hne ⟨hy63, by omega⟩
      have e1 : dstOff width y tx + o
          = y * (width * 4) + 4 * (64 * tx + o / 4) + o % 4 := by
        unfold dstOff TILE_SIZE
        omega
      have e2 : srcOff pitch y tx + o
          = y * pitch + 4 * (64 * tx + o / 4) + o % 4 := by
        unfold srcOff TILE_SIZE
        omega
      rw [e1, e2]
      exact hagree (64 * tx + o / 4) y (o % 4) hx hy hk hxy
    · rintro ⟨rfl, rfl⟩
      obtain ⟨k, hk, hne⟩ := hdiffpt
      intro hEq
      apply hne
      have hpt := (seg_eq_iff _ _ _ _ _).mp hEq (252 + k) (by
        unfold tw TILE_SIZE
        omega)
      have e1 : dstOff width 63 0 + (252 + k) = 63 * (width * 4) + 4 * 63 + k := by
        unfold dstOff TILE_SIZE
        omega
      have e2 : srcOff pitch 63 0 + (252 + k) = 63 * pitch + 4 * 63 + k := by
        unfold srcOff TILE_SIZE
        omega
      rw [e1, e2] at hpt
      exact hpt
  obtain ⟨_, H2, _⟩ := copy_rows_incremental_characterization dst0 src width height
    pitch (DirtyTiles.new width height)
  have htilesXpos : 0 < tilesX width := by
    unfold tilesX TILE_SIZE
    omega
  have htilesYpos : 0 < tilesY height := by
    unfold tilesY TILE_SIZE
    omega
  have hmem630 : ((63, 0) : Nat × Nat) ∈ tilePairs height (tilesX width) :=
    (tilePairs_mem _ _ _).mpr ⟨by omega, htilesXpos⟩
  have hidx630 : (63 / TILE_SIZE) * tilesX width + 0 = 0 := by
    unfold TILE_SIZE
    omega
  have hbit : ∀ j, tilesTestBit
      (copy_rows_incremental dst0 src width height pitch
        (DirtyTiles.new width height)).tiles j = decide (j = 0) := by
    intro j
    rw [H2, tilesTestBit_foldl_set]
    have hnew : tilesTestBit (DirtyTiles.new width height) j = false := by
      simp [tilesTestBit, DirtyTiles.new, Nat.zero_testBit]
    rw [hnew, Bool.false_or, List.any_filter]
    by_cases hj : j = 0
    · subst hj
      rw [show decide ((0 : Nat) = 0) = true from by simp]
      apply List.any_eq_true.mpr
      refine ⟨(63, 0), hmem630, ?_⟩
      have hd : regionDiffers dst0 src width pitch 63 0 :=
        (hdiffiff 63 0 (by omega) htilesXpos).mpr ⟨rfl, rfl⟩
      simp only [Bool.and_eq_true, decide_eq_true_eq]
      exact ⟨hd, hidx630⟩
    · rw [show decide (j = 0) = false from by simp [hj]]
      rcases hany : (tilePairs height (tilesX width)).any (fun p =>
        decide (regionDiffers dst0 src width pitch p.1 p.2)
          && decide ((p.1 / TILE_SIZE) * tilesX width + p.2 = j)) with _ | _
      · rfl
      · exfalso
        obtain ⟨p, hp, hcond⟩ := List.any_eq_true.mp hany
        rw [Bool.and_eq_true, decide_eq_true_eq, decide_eq_true_eq] at hcond
        have hm := (tilePairs_mem _ _ p).mp hp
        have hp630 := (hdiffiff p.1 p.2 hm.1 hm.2).mp hcond.1
        apply hj
        rw [← hcond.2, hp630.1, hp630.2]
        exact hidx630
  have hfx : (copy_rows_incremental dst0 src width height pitch
      (DirtyTiles.new width height)).tiles.tiles_x = tilesX width := by
    rw [H2, foldl_set_tiles_x]
    rfl
  have hfy : (copy_rows_incremental dst0 src width height pitch
      (DirtyTiles.new width height)).tiles.tiles_y = tilesY height := by
    rw [H2, foldl_set_tiles_y]
    rfl
  have hfw : (copy_rows_incremental dst0 src width height pitch
      (DirtyTiles.new width height)).tiles.width = width := by
    rw [H2, foldl_set_width]
    rfl
  have hfh : (copy_rows_incremental dst0 src width height pitch
      (DirtyTiles.new width height)).tiles.height = height := by
    rw [H2, foldl_set_height]
    rfl
  rw [drain_eq_drainSpec]
  unfold drainSpec
  rw [hfx, hfy, hfw, hfh]
  have hcong : ∀ idx ∈ List.range (tilesY height * tilesX width),
      (if tilesTestBit (copy_rows_incremental dst0 src width height pitch
            (DirtyTiles.new width height)).tiles idx then
        some ({ x := (idx % tilesX width) * TILE_SIZE,
                y := (idx / tilesX width) * TILE_SIZE,
                width := min TILE_SIZE (width - (idx % tilesX width) * TILE_SIZE),
                height := min TILE_SIZE (height - (idx / tilesX width) * TILE_SIZE) }
          : DirtyRect)
      else none)
        = (if idx = 0 then
            some ({ x := 0, y := 0, width := 64, height := 64 } : DirtyRect)
          else none) := by
    intro idx _
    rw [hbit idx]
    by_cases hidx : idx = 0
    · subst hidx
      rw [show decide ((0 : Nat) = 0) = true from by simp, if_pos rfl, if_pos rfl]
      have hz1 : (0 : Nat) % tilesX width = 0 := Nat.zero_mod _
      have hz2 : (0 : Nat) / tilesX width = 0 := Nat.zero_div _
      rw [hz1, hz2]
      unfold TILE_SIZE
      congr 1
      congr 1
      · omega
      · omega
    · rw [show decide (idx = 0) = false from by simp [hidx], if_neg hidx]
      rfl
  rw [List.filterMap_congr hcong]
  apply filterMap_range_single _ _ _ 0 (Nat.mul_pos htilesYpos htilesXpos) (by simp)
  intro k _ hk0
  simp [hk0]

/-- Claim C7 witness: two concrete 64×64 frames differing only in the
byte at pixel (63,63). -/
theorem C7_tile_diff_boundary_witness :
    (((copy_rows_incremental (fun _ => 0)
        (fun i => if i = 16380 then 1 else 0) 64 64 256
        (DirtyTiles.new 64 64)).tiles).drain_to_rects).1
      = [{ x := 0, y := 0, width := 64, height := 64 }] := by
  apply C7_tile_diff_boundary (fun _ => 0) (fun i => if i = 16380 then 1 else 0)
    64 64 256 (by omega) (by omega) (by omega) (by decide)
  · intro x y k hx hy hk hne
    show (0 : Nat) = if y * 256 + 4 * x + k = 16380 then 1 else 0
    rw [if_neg (by omega)]
  · exact ⟨0, by omega, by decide⟩
